import Mathlib

/-
Verification of the OCR table-reconstruction heuristic
(`extract_table_advanced` in src/ocr.py and src/temp.py).

The heuristic is a pandas pipeline over the token table produced by the
OCR engine:
  1. filter:   data[data.conf > 30]; data[data.text.notna()];
               data.text = data.text.apply(lambda x: str(x).strip());
               data[data.text != '']
  2. binning:  pd.cut(data.top, bins=20, labels=range(20))
               pd.cut(data.left, bins=10, labels=range(10))
  3. pivot:    data.pivot_table(index=row_group, columns=col_group,
               values='text', aggfunc=lambda x: ' '.join(x), fill_value='')
  4. relabel:  table.reset_index(); columns renamed Column_0 .. Column_10

The OCR engine itself is external; the embedding takes the token list it
returns as input.  Pixel coordinates and confidences are embedded as exact
rationals (ℚ); pandas computes bin edges in IEEE doubles, which agree with
the rational values on the small integer coordinates used in the concrete
examples below.

pandas semantics modelled (pandas ≥ 1.4 line, matching the repository's
use of `to_excel(..., encoding=...)` which exists in the 1.x line):
  * `pd.cut(x, bins=n)` raises `ValueError("Cannot cut empty array")` on an
    empty column; this is modelled by `Option`, `none` being the raised
    error.
  * For a non-empty column, `pd.cut` computes mn = min x, mx = max x and
    n+1 equally spaced edges.  If mn < mx the edges are
    `linspace(mn, mx, n+1)` and the first edge is then lowered by 0.1 % of
    the range; if mn = mx both end points are first moved out by 0.1 % of
    their magnitude (by 0.001 if zero).  A value v is assigned the
    right-closed interval (edge i, edge (i+1)] that contains it, found by
    `searchsorted(side='left') - 1`.
  * `pivot_table` groups by the two cut categoricals.  Both carry the full
    label sets range(20) / range(10), and groupby's default
    `observed=False` therefore produces every one of the 20 × 10 groups;
    the python aggfunc `' '.join` is applied to each group's text values in
    original row order (groupby's sort is stable), yielding '' on empty
    groups, so the grid is a full 20 × 10 array with '' in empty cells and
    rows/columns sorted by label.
  * `reset_index` prepends the row label as a data column, after which the
    11 columns are renamed Column_0 .. Column_10.
-/

/- The rational-number arithmetic of the standard library is sealed against
definitional unfolding; re-open it so that the concrete witnesses below can
be checked by `decide`. -/
attribute [local semireducible] Rat.mul Rat.inv Rat.add Rat.sub Rat.ofScientific

/-- One row of the token table returned by the OCR engine
(`pytesseract.image_to_data` with DATAFRAME output): the recognised text
(`none` embeds a NaN/absent text cell), the bounding box, and the
confidence score. -/
structure Token where
  text : Option String
  left : ℚ
  top : ℚ
  width : ℚ
  height : ℚ
  conf : ℚ
  deriving DecidableEq, Repr

/-- Python `str.strip` on a raw character list: whitespace is removed from
both ends. -/
def stripChars (cs : List Char) : List Char :=
  ((cs.dropWhile Char.isWhitespace).reverse.dropWhile Char.isWhitespace).reverse

/-- Python `str.strip` on strings. -/
def pyStrip (s : String) : String :=
  String.mk (stripChars s.data)

/-- `data['text'] = data['text'].apply(lambda x: str(x).strip())` applied to
one token (line 31 of src/ocr.py). -/
def stripTok (t : Token) : Token :=
  { t with text := t.text.map pyStrip }

/-- The token filter, lines 29-32 of src/ocr.py (identically lines 22-25 of
src/temp.py): keep confidence strictly above 30, drop NaN texts, strip the
text, drop now-empty texts. -/
def cleanTokens (ts : List Token) : List Token :=
  ((((ts.filter fun t => decide (30 < t.conf)).filter
      fun t => t.text.isSome).map stripTok).filter
      fun t => decide (t.text ≠ some ""))

/-- Index of the first element of `es` that is `≥ v`, or `es.length` when
there is none: `numpy.searchsorted(es, v, side='left')` on a sorted edge
list, written as the linear scan it is equivalent to. -/
def firstGE (v : ℚ) : List ℚ → ℕ
  | [] => 0
  | e :: es => if v ≤ e then 0 else firstGE v es + 1

/-- Edge `i` of the `n + 1` bin edges `pd.cut(x, bins=n)` builds from the
column range `[mn, mx]`.  `mn < mx`: `linspace(mn, mx, n+1)` with the first
edge lowered by 0.1 % of the range.  `mn = mx`: both end points are moved
out by 0.1 % of their magnitude (by 0.001 when zero) before `linspace`. -/
def cutEdge (mn mx : ℚ) (n : ℕ) (i : ℕ) : ℚ :=
  if mn = mx then
    (mn - (if mn = 0 then 1 / 1000 else |mn| / 1000)) +
      (i : ℚ) * ((mx + (if mx = 0 then 1 / 1000 else |mx| / 1000)) -
        (mn - (if mn = 0 then 1 / 1000 else |mn| / 1000))) / (n : ℚ)
  else if i = 0 then mn - (mx - mn) / 1000
  else mn + (i : ℚ) * (mx - mn) / (n : ℚ)

/-- The full edge list of `pd.cut(x, bins=n)` for column range `[mn, mx]`. -/
def cutEdges (mn mx : ℚ) (n : ℕ) : List ℚ :=
  (List.range (n + 1)).map (cutEdge mn mx n)

/-- The bucket `pd.cut` assigns to `v`: the index of the right-closed
inter-edge interval containing `v`, i.e. `searchsorted(side='left') - 1`.
(`pd.cut` yields NaN when `v` is at or below the first edge; for the values
of the column the range was computed from this cannot happen, see
`cutBucket_lt`.) -/
def cutBucket (mn mx : ℚ) (n : ℕ) (v : ℚ) : ℕ :=
  firstGE v (cutEdges mn mx n) - 1

/-- Minimum of a pandas numeric column (0 on the empty column, unused). -/
def colMin : List ℚ → ℚ
  | [] => 0
  | x :: xs => xs.foldl min x

/-- Maximum of a pandas numeric column (0 on the empty column, unused). -/
def colMax : List ℚ → ℚ
  | [] => 0
  | x :: xs => xs.foldl max x

/-- `row_group` of a token of the filtered table `d`:
`pd.cut(data['top'], bins=20, labels=range(20))` (line 35 of src/ocr.py). -/
def rowBucket (d : List Token) (t : Token) : ℕ :=
  cutBucket (colMin (d.map Token.top)) (colMax (d.map Token.top)) 20 t.top

/-- `col_group` of a token of the filtered table `d`:
`pd.cut(data['left'], bins=10, labels=range(10))` (line 36 of src/ocr.py). -/
def colBucket (d : List Token) (t : Token) : ℕ :=
  cutBucket (colMin (d.map Token.left)) (colMax (d.map Token.left)) 10 t.left

/-- Text of a kept token (`cleanTokens` guarantees `text` is `some`). -/
def tokenText (t : Token) : String :=
  t.text.getD ""

/-- One cell of the pivot table: the texts of the tokens of group
`(r, c)` in original row order, joined with a single space
(`aggfunc=lambda x: ' '.join(x)`); the empty group yields `''`
(`' '.join` of nothing, and `fill_value=''`). -/
def pivotCell (d : List Token) (r c : ℕ) : String :=
  String.intercalate " "
    ((d.filter fun t => decide (rowBucket d t = r ∧ colBucket d t = c)).map tokenText)

/-- The DataFrame returned by `extract_table_advanced` after `reset_index`
and column renaming: a header row and, per pivot row, the `row_group` label
(the old index, now the first data column) paired with the 10 cell
strings. -/
structure Frame where
  header : List String
  rows : List (ℕ × List String)
  deriving DecidableEq, Repr

/-- `extract_table_advanced` of src/ocr.py (lines 29-49), from the point
where the OCR token table is in hand.  `none` embeds the
`ValueError("Cannot cut empty array")` that `pd.cut` raises when every
token was filtered out. -/
def extract_table_advanced_ocr (ts : List Token) : Option Frame :=
  let d := cleanTokens ts
  if d.isEmpty then none
  else some
    { header := (List.range 11).map fun i => "Column_" ++ toString i
      rows := (List.range 20).map fun r =>
        (r, (List.range 10).map fun c => pivotCell d r c) }

/-- `extract_table_advanced` of src/temp.py (lines 22-43): its body is a
verbatim copy of the one in src/ocr.py. -/
def extract_table_advanced_temp (ts : List Token) : Option Frame :=
  let d := cleanTokens ts
  if d.isEmpty then none
  else some
    { header := (List.range 11).map fun i => "Column_" ++ toString i
      rows := (List.range 20).map fun r =>
        (r, (List.range 10).map fun c => pivotCell d r c) }

/-- The binning rule as the specification words it: equal-width binning
`floor((v - mn) / (mx - mn) * n)` clamped to `[0, n - 1]`. -/
def specFloorBucket (mn mx : ℚ) (n : ℕ) (v : ℚ) : ℕ :=
  min (n - 1) (Int.toNat ⌊(v - mn) / (mx - mn) * (n : ℚ)⌋)

lemma firstGE_nil (v : ℚ) : firstGE v [] = 0 := rfl

lemma firstGE_cons (v e : ℚ) (es : List ℚ) :
    firstGE v (e :: es) = if v ≤ e then 0 else firstGE v es + 1 := rfl

/-- Exact value of the search: if `f i < v` strictly below index `m` and
`v ≤ f m` at `m` (when `m` is in range), the first index with `f i ≥ v`
among `a, a+1, …, a+k-1` is `m`. -/
lemma firstGE_map_range' (f : ℕ → ℚ) (v : ℚ) :
    ∀ (k a m : ℕ), a ≤ m → m ≤ a + k →
      (∀ i, a ≤ i → i < m → f i < v) →
      (m < a + k → v ≤ f m) →
      firstGE v ((List.range' a k).map f) = m - a := by
  intro k
  induction k with
  | zero =>
    intro a m h1 h2 _ _
    simp only [List.range', List.map_nil, firstGE_nil]
    omega
  | succ k ih =>
    intro a m h1 h2 hlt hge
    rw [List.range'_succ, List.map_cons, firstGE_cons]
    rcases Nat.eq_or_lt_of_le h1 with he | hl
    · subst he
      rw [if_pos (hge (by omega))]
      omega
    · rw [if_neg (not_le.mpr (hlt a le_rfl hl))]
      have hrec := ih (a + 1) m hl (by omega)
        (fun i hi1 hi2 => hlt i (by omega) hi2) (fun hm => hge (by omega))
      omega

lemma cutEdges_eq_range' (mn mx : ℚ) (n : ℕ) :
    cutEdges mn mx n = (List.range' 0 (n + 1)).map (cutEdge mn mx n) := by
  rw [cutEdges, List.range_eq_range']

lemma cutEdge_zero_of_lt {mn mx : ℚ} (hmn : mn < mx) (n : ℕ) :
    cutEdge mn mx n 0 = mn - (mx - mn) / 1000 := by
  simp [cutEdge, ne_of_lt hmn]

lemma cutEdge_pos_of_lt {mn mx : ℚ} (hmn : mn < mx) (n : ℕ) {i : ℕ} (hi : i ≠ 0) :
    cutEdge mn mx n i = mn + (i : ℚ) * (mx - mn) / (n : ℚ) := by
  simp [cutEdge, ne_of_lt hmn, hi]

/-- Closed form of `pd.cut`'s bucket on a non-degenerate range: the minimum
goes to bucket 0, and any other in-range value `v` to bucket
`⌈(v - mn)·n/(mx - mn)⌉ - 1` (right-closed equal-width intervals). -/
lemma cutBucket_eq_of_lt {mn mx : ℚ} {n : ℕ} {v : ℚ} (hmn : mn < mx)
    (hn : 0 < n) (h1 : mn ≤ v) (h2 : v ≤ mx) :
    cutBucket mn mx n v =
      if v = mn then 0 else (⌈(v - mn) * (n : ℚ) / (mx - mn)⌉).toNat - 1 := by
  have hx : (0 : ℚ) < mx - mn := by linarith
  have hnq : (0 : ℚ) < (n : ℚ) := by exact_mod_cast hn
  by_cases hv : v = mn
  · subst hv
    have hfirst : firstGE v (cutEdges v mx n) = 1 := by
      rw [cutEdges_eq_range']
      have := firstGE_map_range' (cutEdge v mx n) v (n + 1) 0 1 (by omega) (by omega)
        (fun i hi1 hi2 => by
          have hi0 : i = 0 := by omega
          subst hi0
          rw [cutEdge_zero_of_lt hmn]
          linarith)
        (fun hm => by
          rw [cutEdge_pos_of_lt hmn n (by omega : (1 : ℕ) ≠ 0)]
          have h0 : (0 : ℚ) ≤ ((1 : ℕ) : ℚ) * (mx - v) / (n : ℚ) := by positivity
          linarith)
      simpa using this
    simp [cutBucket, hfirst, if_pos rfl]
  · have hvmn : mn < v := lt_of_le_of_ne h1 (fun h => hv h.symm)
    set x : ℚ := (v - mn) * (n : ℚ) / (mx - mn) with hxdef
    have hxpos : 0 < x := by
      apply div_pos _ hx
      apply mul_pos (by linarith) hnq
    have hceil1 : 1 ≤ ⌈x⌉ := Int.ceil_pos.mpr hxpos
    have hxn : x ≤ (n : ℚ) := by
      rw [hxdef, div_le_iff hx]
      have hfr : v - mn ≤ mx - mn := by linarith
      calc (v - mn) * (n : ℚ) ≤ (mx - mn) * (n : ℚ) :=
            mul_le_mul_of_nonneg_right hfr (le_of_lt hnq)
        _ = (n : ℚ) * (mx - mn) := by ring
    have hceiln : ⌈x⌉ ≤ (n : ℤ) := Int.ceil_le.mpr (by exact_mod_cast hxn)
    set m : ℕ := (⌈x⌉).toNat with hmdef
    have hmcast : ((m : ℤ)) = ⌈x⌉ := Int.toNat_of_nonneg (by omega)
    have hm1 : 1 ≤ m := by omega
    have hmn' : m ≤ n := by omega
    have hmq : ((m : ℚ)) = ((⌈x⌉ : ℤ) : ℚ) := by exact_mod_cast hmcast
    have hfirst : firstGE v (cutEdges mn mx n) = m := by
      rw [cutEdges_eq_range']
      have := firstGE_map_range' (cutEdge mn mx n) v (n + 1) 0 m (by omega) (by omega)
        (fun i hi1 hi2 => by
          rcases Nat.eq_zero_or_pos i with hi0 | hipos
          · subst hi0
            rw [cutEdge_zero_of_lt hmn]
            linarith
          · rw [cutEdge_pos_of_lt hmn n (by omega : i ≠ 0)]
            have hiltx : (i : ℚ) < x := by
              have hiz : (i : ℤ) < ⌈x⌉ := by omega
              have hiq : (i : ℚ) ≤ ((⌈x⌉ : ℤ) : ℚ) - 1 := by
                have := Int.le_sub_one_of_lt hiz
                exact_mod_cast this
              have hc : ((⌈x⌉ : ℤ) : ℚ) - 1 < x := by
                have := Int.ceil_lt_add_one x
                linarith
              linarith
            have h4 : (i : ℚ) * (mx - mn) < (v - mn) * (n : ℚ) := by
              rw [hxdef] at hiltx
              have := (lt_div_iff hx).mp hiltx
              linarith
            have h5 : (i : ℚ) * (mx - mn) / (n : ℚ) < v - mn := by
              rw [div_lt_iff hnq]
              linarith
            linarith)
        (fun hm => by
          rw [cutEdge_pos_of_lt hmn n (by omega : m ≠ 0)]
          have hxm : x ≤ (m : ℚ) := by
            rw [hmq]
            exact le_trans (Int.le_ceil x) (by norm_num)
          have h4 : (v - mn) * (n : ℚ) ≤ (m : ℚ) * (mx - mn) := by
            rw [hxdef] at hxm
            have := (div_le_iff hx).mp hxm
            linarith
          have h5 : v - mn ≤ (m : ℚ) * (mx - mn) / (n : ℚ) := by
            rw [le_div_iff hnq]
            linarith
          linarith)
      simpa using this
    simp only [cutBucket, hfirst, if_neg hv]

/-- The padding `pd.cut` applies to a degenerate (zero-width) range. -/
lemma cutEdge_eq_of_eq (v : ℚ) (n : ℕ) (i : ℕ) :
    cutEdge v v n i =
      (v - (if v = 0 then 1 / 1000 else |v| / 1000)) +
        (i : ℚ) * (2 * (if v = 0 then 1 / 1000 else |v| / 1000)) / (n : ℚ) := by
  simp only [cutEdge, eq_self_iff_true, if_true]
  ring

/-- Closed form of `pd.cut`'s bucket on a degenerate range: the common
value sits exactly on the middle edge of the padded range and is assigned
the bucket left of the midpoint, `(n + 1) / 2 - 1` (9 for 20 bins, 4 for
10 bins) — not bucket 0. -/
lemma cutBucket_eq_of_eq (v : ℚ) (n : ℕ) (hn : 0 < n) :
    cutBucket v v n v = (n + 1) / 2 - 1 := by
  set d : ℚ := if v = 0 then 1 / 1000 else |v| / 1000 with hddef
  have hd : 0 < d := by
    rw [hddef]
    by_cases hv : v = 0
    · rw [if_pos hv]; norm_num
    · rw [if_neg hv]
      have : 0 < |v| := abs_pos.mpr hv
      positivity
  have hnq : (0 : ℚ) < (n : ℚ) := by exact_mod_cast hn
  set m : ℕ := (n + 1) / 2 with hmdef
  have hfirst : firstGE v (cutEdges v v n) = m := by
    rw [cutEdges_eq_range']
    have := firstGE_map_range' (cutEdge v v n) v (n + 1) 0 m (by omega) (by omega)
      (fun i hi1 hi2 => by
        rw [cutEdge_eq_of_eq, ← hddef]
        have h2i : 2 * i < n := by omega
        have h2iq : (i : ℚ) * 2 < (n : ℚ) := by exact_mod_cast (by omega : i * 2 < n)
        have hlt : (i : ℚ) * (2 * d) / (n : ℚ) < d := by
          rw [div_lt_iff hnq]
          nlinarith
        linarith)
      (fun hm => by
        rw [cutEdge_eq_of_eq, ← hddef]
        have h2m : n ≤ 2 * m := by omega
        have h2mq : (n : ℚ) ≤ (m : ℚ) * 2 := by exact_mod_cast (by omega : n ≤ m * 2)
        have hge : d ≤ (m : ℚ) * (2 * d) / (n : ℚ) := by
          rw [le_div_iff hnq]
          nlinarith
        linarith)
    simpa using this
  simp only [cutBucket, hfirst]

lemma foldl_min_le_init (xs : List ℚ) : ∀ a : ℚ, xs.foldl min a ≤ a := by
  induction xs with
  | nil => intro a; exact le_rfl
  | cons x xs ih =>
    intro a
    exact le_trans (ih (min a x)) (min_le_left a x)

lemma foldl_min_le_mem {v : ℚ} (xs : List ℚ) : ∀ a : ℚ, v ∈ xs → xs.foldl min a ≤ v := by
  induction xs with
  | nil => intro a h; cases h
  | cons x xs ih =>
    intro a h
    rcases List.mem_cons.mp h with h | h
    · subst h
      exact le_trans (foldl_min_le_init xs (min a v)) (min_le_right a v)
    · exact ih (min a x) h

lemma init_le_foldl_max (xs : List ℚ) : ∀ a : ℚ, a ≤ xs.foldl max a := by
  induction xs with
  | nil => intro a; exact le_rfl
  | cons x xs ih =>
    intro a
    exact le_trans (le_max_left a x) (ih (max a x))

lemma mem_le_foldl_max {v : ℚ} (xs : List ℚ) : ∀ a : ℚ, v ∈ xs → v ≤ xs.foldl max a := by
  induction xs with
  | nil => intro a h; cases h
  | cons x xs ih =>
    intro a h
    rcases List.mem_cons.mp h with h | h
    · subst h
      exact le_trans (le_max_right a v) (init_le_foldl_max xs (max a v))
    · exact ih (max a x) h

lemma colMin_le {v : ℚ} {xs : List ℚ} (h : v ∈ xs) : colMin xs ≤ v := by
  cases xs with
  | nil => cases h
  | cons x xs =>
    rcases List.mem_cons.mp h with h | h
    · subst h; exact foldl_min_le_init xs v
    · exact foldl_min_le_mem xs x h

lemma le_colMax {v : ℚ} {xs : List ℚ} (h : v ∈ xs) : v ≤ colMax xs := by
  cases xs with
  | nil => cases h
  | cons x xs =>
    rcases List.mem_cons.mp h with h | h
    · subst h; exact init_le_foldl_max xs v
    · exact mem_le_foldl_max xs x h

/-- Every bucket `pd.cut` assigns to a value of the column it was built
from is in range: below `n`. -/
lemma cutBucket_lt {mn mx v : ℚ} {n : ℕ} (hn : 0 < n) (h1 : mn ≤ v) (h2 : v ≤ mx) :
    cutBucket mn mx n v < n := by
  rcases lt_or_eq_of_le (le_trans h1 h2) with hmn | hmn
  · rw [cutBucket_eq_of_lt hmn hn h1 h2]
    by_cases hv : v = mn
    · rw [if_pos hv]; exact hn
    · rw [if_neg hv]
      have hx : (0 : ℚ) < mx - mn := by linarith
      have hnq : (0 : ℚ) < (n : ℚ) := by exact_mod_cast hn
      have hxn : (v - mn) * (n : ℚ) / (mx - mn) ≤ (n : ℚ) := by
        rw [div_le_iff hx]
        nlinarith
      have hceiln : ⌈(v - mn) * (n : ℚ) / (mx - mn)⌉ ≤ (n : ℤ) :=
        Int.ceil_le.mpr (by exact_mod_cast hxn)
      omega
  · subst hmn
    have hv1 : v = mn := le_antisymm h2 h1
    subst hv1
    rw [cutBucket_eq_of_eq v n hn]
    omega

lemma data_mk (l : List Char) : (String.mk l).data = l := rfl

lemma getLast?_dropWhile_of_ne {α : Type} (p : α → Bool) :
    ∀ l : List α, l.dropWhile p ≠ [] → (l.dropWhile p).getLast? = l.getLast? := by
  intro l
  induction l with
  | nil => intro h; simp at h
  | cons x xs ih =>
    intro h
    by_cases hp : p x
    · have hd : (x :: xs).dropWhile p = xs.dropWhile p := by
        simp [List.dropWhile_cons, hp]
      rw [hd] at h ⊢
      rw [ih h]
      cases xs with
      | nil => simp at h
      | cons y ys => rw [List.getLast?_cons_cons]
    · simp [List.dropWhile_cons, hp]

lemma head?_dropWhile_false {α : Type} (p : α → Bool) (l : List α) (x : α)
    (hx : (l.dropWhile p).head? = some x) : p x = false := by
  have h := List.head?_dropWhile_not p l
  rw [hx] at h
  exact h

lemma dropWhile_eq_self_of_head? {α : Type} (p : α → Bool) (l : List α)
    (h : ∀ x, l.head? = some x → p x = false) : l.dropWhile p = l := by
  cases l with
  | nil => rfl
  | cons x xs => simp [List.dropWhile_cons, h x rfl]

lemma stripChars_idem (cs : List Char) : stripChars (stripChars cs) = stripChars cs := by
  set p := Char.isWhitespace with hp
  set a := cs.dropWhile p with ha
  set b := a.reverse.dropWhile p with hb
  show ((b.reverse.dropWhile p).reverse.dropWhile p).reverse = b.reverse
  have h1 : b.reverse.dropWhile p = b.reverse := by
    apply dropWhile_eq_self_of_head?
    intro x hx
    rw [List.head?_reverse] at hx
    have hbne : b ≠ [] := by
      intro h0
      rw [h0] at hx
      simp at hx
    rw [hb, getLast?_dropWhile_of_ne p a.reverse (by rwa [← hb])] at hx
    rw [List.getLast?_reverse] at hx
    exact head?_dropWhile_false p cs x (by rwa [← ha])
  rw [h1, List.reverse_reverse]
  have h2 : b.dropWhile p = b := by
    rw [hb]
    exact List.dropWhile_idempotent p a.reverse
  rw [h2]

lemma pyStrip_idem (s : String) : pyStrip (pyStrip s) = pyStrip s := by
  simp only [pyStrip, data_mk, stripChars_idem]

lemma stripTok_idem (t : Token) : stripTok (stripTok t) = stripTok t := by
  cases ht : t.text <;> simp [stripTok, ht, pyStrip_idem]

/-- The keep-test that `cleanTokens` implements per token: confidence
strictly above 30, and text present and non-blank after stripping. -/
def keepTok (t : Token) : Bool :=
  decide (30 < t.conf) && decide ((t.text.map pyStrip).getD "" ≠ "")

lemma cleanTokens_nil : cleanTokens [] = [] := rfl

lemma cleanTokens_cons (t : Token) (ts : List Token) :
    cleanTokens (t :: ts) =
      if keepTok t then stripTok t :: cleanTokens ts else cleanTokens ts := by
  by_cases h1 : 30 < t.conf
  · cases ht : t.text with
    | none => simp [cleanTokens, keepTok, List.filter_cons, h1, ht]
    | some s =>
      by_cases h2 : pyStrip s = ""
      · simp [cleanTokens, keepTok, stripTok, List.filter_cons, List.map_cons, h1, ht, h2]
      · simp [cleanTokens, keepTok, stripTok, List.filter_cons, List.map_cons, h1, ht, h2]
  · simp [cleanTokens, keepTok, List.filter_cons, h1]

lemma cleanTokens_eq_filter_map (ts : List Token) :
    cleanTokens ts = (ts.filter keepTok).map stripTok := by
  induction ts with
  | nil => rfl
  | cons t ts ih =>
    rw [cleanTokens_cons, List.filter_cons]
    by_cases h : keepTok t
    · simp [h, ih]
    · simp [h, ih]

lemma mem_cleanTokens {t : Token} {ts : List Token} (h : t ∈ cleanTokens ts) :
    ∃ t0 ∈ ts, t = stripTok t0 ∧ keepTok t0 = true := by
  rw [cleanTokens_eq_filter_map] at h
  rcases List.mem_map.mp h with ⟨t0, ht0, hst⟩
  rcases List.mem_filter.mp ht0 with ⟨hmem, hkeep⟩
  exact ⟨t0, hmem, hst.symm, hkeep⟩

lemma keepTok_text {t : Token} (h : keepTok t = true) :
    ∃ s, t.text = some s ∧ pyStrip s ≠ "" := by
  rcases Bool.and_eq_true_iff.mp h with ⟨_, h2⟩
  cases ht : t.text with
  | none =>
    rw [ht] at h2
    simp at h2
  | some s =>
    rw [ht] at h2
    refine ⟨s, rfl, ?_⟩
    simpa using of_decide_eq_true h2

lemma cleanTokens_shape {t : Token} {ts : List Token} (h : t ∈ cleanTokens ts) :
    30 < t.conf ∧ ∃ s, t.text = some s ∧ s ≠ "" ∧ pyStrip s = s := by
  rcases mem_cleanTokens h with ⟨t0, _, rfl, hkeep⟩
  rcases keepTok_text hkeep with ⟨s0, ht0, hs0⟩
  rcases Bool.and_eq_true_iff.mp hkeep with ⟨h1, _⟩
  refine ⟨of_decide_eq_true h1, pyStrip s0, ?_, hs0, pyStrip_idem s0⟩
  simp [stripTok, ht0]

lemma cleanTokens_eq_self (l : List Token)
    (h : ∀ t ∈ l, keepTok t = true ∧ stripTok t = t) : cleanTokens l = l := by
  induction l with
  | nil => rfl
  | cons t ts ih =>
    rw [cleanTokens_cons, if_pos (h t (by simp)).1, (h t (by simp)).2,
      ih (fun t' ht' => h t' (by simp [ht']))]

lemma intercalate_go_nil (acc s : String) : String.intercalate.go acc s [] = acc := rfl

lemma intercalate_go_cons (acc s a : String) (as : List String) :
    String.intercalate.go acc s (a :: as) = String.intercalate.go (acc ++ s ++ a) s as := rfl

lemma intercalate_cons (s a : String) (as : List String) :
    String.intercalate s (a :: as) = String.intercalate.go a s as := rfl

lemma intercalate_go_length (s : String) :
    ∀ (l : List String) (acc : String),
      acc.length ≤ (String.intercalate.go acc s l).length := by
  intro l
  induction l with
  | nil => intro acc; rw [intercalate_go_nil]
  | cons a as ih =>
    intro acc
    rw [intercalate_go_cons]
    refine le_trans ?_ (ih (acc ++ s ++ a))
    simp only [String.length_append]
    omega

lemma length_pos_of_ne_empty {s : String} (h : s ≠ "") : 0 < s.length := by
  cases s with
  | mk l =>
    cases l with
    | nil => exact absurd rfl h
    | cons c cs => simp [String.length]

lemma intercalate_ne_empty (s a : String) (as : List String) (ha : a ≠ "") :
    String.intercalate s (a :: as) ≠ "" := by
  intro h0
  have h1 : a.length ≤ (String.intercalate s (a :: as)).length := by
    rw [intercalate_cons]
    exact intercalate_go_length s as a
  rw [h0] at h1
  have h2 : 0 < a.length := length_pos_of_ne_empty ha
  have h3 : ("" : String).length = 0 := rfl
  omega

lemma rowBucket_lt {d : List Token} {t : Token} (h : t ∈ d) : rowBucket d t < 20 := by
  exact cutBucket_lt (by norm_num)
    (colMin_le (List.mem_map_of_mem Token.top h))
    (le_colMax (List.mem_map_of_mem Token.top h))

lemma colBucket_lt {d : List Token} {t : Token} (h : t ∈ d) : colBucket d t < 10 := by
  exact cutBucket_lt (by norm_num)
    (colMin_le (List.mem_map_of_mem Token.left h))
    (le_colMax (List.mem_map_of_mem Token.left h))

lemma foldl_min_const {v : ℚ} : ∀ xs : List ℚ, (∀ u ∈ xs, u = v) → xs.foldl min v = v := by
  intro xs
  induction xs with
  | nil => intro _; rfl
  | cons x xs ih =>
    intro h
    have hx : x = v := h x (by simp)
    subst hx
    rw [List.foldl_cons, min_self]
    exact ih fun u hu => h u (by simp [hu])

lemma foldl_max_const {v : ℚ} : ∀ xs : List ℚ, (∀ u ∈ xs, u = v) → xs.foldl max v = v := by
  intro xs
  induction xs with
  | nil => intro _; rfl
  | cons x xs ih =>
    intro h
    have hx : x = v := h x (by simp)
    subst hx
    rw [List.foldl_cons, max_self]
    exact ih fun u hu => h u (by simp [hu])

lemma colMin_const {v : ℚ} {xs : List ℚ} (hne : xs ≠ []) (h : ∀ u ∈ xs, u = v) :
    colMin xs = v := by
  cases xs with
  | nil => exact absurd rfl hne
  | cons x xs =>
    have hx : x = v := h x (by simp)
    subst hx
    exact foldl_min_const xs fun u hu => h u (by simp [hu])

lemma colMax_const {v : ℚ} {xs : List ℚ} (hne : xs ≠ []) (h : ∀ u ∈ xs, u = v) :
    colMax xs = v := by
  cases xs with
  | nil => exact absurd rfl hne
  | cons x xs =>
    have hx : x = v := h x (by simp)
    subst hx
    exact foldl_max_const xs fun u hu => h u (by simp [hu])

/-- The frame `extract_table_advanced` returns when at least one token
survives the filter. -/
lemma extract_eq_some {ts : List Token} (h : cleanTokens ts ≠ []) :
    extract_table_advanced_ocr ts = some
      { header := (List.range 11).map fun i => "Column_" ++ toString i
        rows := (List.range 20).map fun r =>
          (r, (List.range 10).map fun c => pivotCell (cleanTokens ts) r c) } := by
  rw [extract_table_advanced_ocr]
  simp only [List.isEmpty_iff]
  rw [if_neg h]

/-! Concrete tokens used by the witnesses and counterexamples. -/

/-- High-confidence token at the top-left corner. -/
def tokA : Token := { text := some "A", left := 0, top := 0, width := 0, height := 0, conf := 90 }

/-- High-confidence token whose `top` lands exactly on an interior bin edge. -/
def tokB : Token := { text := some "B", left := 50, top := 5, width := 0, height := 0, conf := 90 }

/-- High-confidence token at the bottom-right corner. -/
def tokC : Token := { text := some "C", left := 100, top := 100, width := 0, height := 0, conf := 90 }

/-- Low-confidence token, removed by the filter. -/
def tokLow : Token := { text := some "B", left := 50, top := 0, width := 0, height := 0, conf := 10 }

/-- Token of a degenerate page: every token at (top, left) = (7, 7). -/
def tokD7 : Token := { text := some "x", left := 7, top := 7, width := 0, height := 0, conf := 90 }

/-- Second token of the degenerate page, same coordinates. -/
def tokE7 : Token := { text := some "y", left := 7, top := 7, width := 0, height := 0, conf := 80 }

/-- C4: on the empty token list — no detected tokens, or every token removed
by the confidence/text filter — `pd.cut(data['top'], bins=20)` is reached
with an empty column and raises `ValueError("Cannot cut empty array")`
(modelled by `none`); the pipeline does NOT return the 20 × 10 grid of
empty strings the specification promises.  The claim describes the clear
intent (spec §7 and §8.6: "not an error"); the code is the slip. -/
theorem C4_empty_input_errors (ts : List Token) (h : cleanTokens ts = []) :
    extract_table_advanced_ocr ts = none := by
  rw [extract_table_advanced_ocr]
  simp only [List.isEmpty_iff]
  rw [if_pos h]

/-- Witness for C4 at the concrete failing inputs: the empty token list and
a singleton whose only token is dropped by the confidence filter. -/
theorem C4_empty_input_errors_witness :
    (cleanTokens [] = [] ∧ extract_table_advanced_ocr [] = none) ∧
    (cleanTokens [tokLow] = [] ∧ extract_table_advanced_ocr [tokLow] = none) :=
  ⟨⟨by decide, C4_empty_input_errors [] (by decide)⟩,
   ⟨by decide, C4_empty_input_errors [tokLow] (by decide)⟩⟩

/-- C5: the filter keeps exactly the tokens with confidence strictly above
30 whose text is present and non-blank after stripping (equivalently: it
removes a token iff its confidence is ≤ 30 or its text is missing, empty,
or whitespace-only), and the kept tokens appear in order with their text
stripped of surrounding whitespace. -/
theorem C5_filter_rule (ts : List Token) :
    cleanTokens ts =
      (ts.filter fun t =>
        decide (30 < t.conf) && decide ((t.text.map pyStrip).getD "" ≠ "")).map
        stripTok := by
  rw [cleanTokens_eq_filter_map]
  rfl

/-- C6: binning any token of any token list against the coordinate ranges
of that same list yields a row bucket below 20 and a column bucket below
10; no index ever falls outside the grid. -/
theorem C6_buckets_in_range (d : List Token) (t : Token) (h : t ∈ d) :
    rowBucket d t < 20 ∧ colBucket d t < 10 :=
  ⟨rowBucket_lt h, colBucket_lt h⟩

/-- Witness for C6 at a concrete token list. -/
theorem C6_buckets_in_range_witness :
    tokB ∈ [tokA, tokB, tokC] ∧
    (rowBucket [tokA, tokB, tokC] tokB < 20 ∧ colBucket [tokA, tokB, tokC] tokB < 10) :=
  ⟨by decide, C6_buckets_in_range [tokA, tokB, tokC] tokB (by decide)⟩

/-- C8: the confidence/text filter is idempotent — re-filtering an
already-filtered token list changes nothing. -/
theorem C8_filter_idempotent (ts : List Token) :
    cleanTokens (cleanTokens ts) = cleanTokens ts := by
  apply cleanTokens_eq_self
  intro t ht
  rcases mem_cleanTokens ht with ⟨t0, _, rfl, hkeep⟩
  rcases keepTok_text hkeep with ⟨s0, ht0, hs0⟩
  rcases Bool.and_eq_true_iff.mp hkeep with ⟨h1, _⟩
  refine ⟨?_, stripTok_idem t0⟩
  rw [keepTok]
  apply Bool.and_eq_true_iff.mpr
  refine ⟨h1, ?_⟩
  simp only [stripTok, ht0, Option.map_some', Option.getD_some, pyStrip_idem]
  exact decide_eq_true hs0

/-- C9: the two copies of `extract_table_advanced` (src/ocr.py lines 12-51
and src/temp.py lines 5-45) have verbatim-identical bodies and therefore
compute the same table on every input token list. -/
theorem C9_duplicates_agree (ts : List Token) :
    extract_table_advanced_ocr ts = extract_table_advanced_temp ts := rfl

/-- C1 counterexample: on the token list with tops {0, 5, 100} (and lefts
{0, 50, 100}, so both ranges are non-degenerate) the token with top = 5
sits exactly on the interior bin edge 5 = 0 + 1·(100 − 0)/20.  `pd.cut`'s
intervals are right-closed, so the token falls in row bucket 0, while the
specification's formula floor((5 − 0)/(100 − 0)·20) = 1 puts it in row
bucket 1. -/
theorem C1_floor_formula_counterexample :
    cleanTokens [tokA, tokB, tokC] = [tokA, tokB, tokC] ∧
    colMin ([tokA, tokB, tokC].map Token.top) = 0 ∧
    colMax ([tokA, tokB, tokC].map Token.top) = 100 ∧
    tokB.top = 5 ∧
    rowBucket [tokA, tokB, tokC] tokB = 0 ∧
    specFloorBucket 0 100 20 5 = 1 ∧
    rowBucket [tokA, tokB, tokC] tokB ≠
      specFloorBucket (colMin ([tokA, tokB, tokC].map Token.top))
        (colMax ([tokA, tokB, tokC].map Token.top)) 20 tokB.top := by
  refine ⟨by decide, by decide, by decide, by decide, by decide, by decide, by decide⟩

/-- C1 (amended): for a token list whose top range and left range are both
non-degenerate (max > min), the row bucket of each token is given by
right-closed equal-width binning: bucket 0 for the minimum, and
⌈(value − min)/(max − min) · 20⌉ − 1 otherwise (so a value exactly on an
interior edge falls in the bucket BELOW the edge, one less than the
specification's floor formula there); likewise for the column bucket with
10 buckets.  No clamp is needed: the result is always in range. -/
theorem C1_bucket_closed_form (d : List Token) (t : Token) (ht : t ∈ d)
    (hrow : colMin (d.map Token.top) < colMax (d.map Token.top))
    (hcol : colMin (d.map Token.left) < colMax (d.map Token.left)) :
    rowBucket d t =
      (if t.top = colMin (d.map Token.top) then 0
       else (⌈(t.top - colMin (d.map Token.top)) * (20 : ℚ) /
         (colMax (d.map Token.top) - colMin (d.map Token.top))⌉).toNat - 1) ∧
    colBucket d t =
      (if t.left = colMin (d.map Token.left) then 0
       else (⌈(t.left - colMin (d.map Token.left)) * (10 : ℚ) /
         (colMax (d.map Token.left) - colMin (d.map Token.left))⌉).toNat - 1) := by
  constructor
  · have h := cutBucket_eq_of_lt (n := 20) hrow (by norm_num)
      (colMin_le (List.mem_map_of_mem Token.top ht))
      (le_colMax (List.mem_map_of_mem Token.top ht))
    rw [rowBucket, h]
    norm_num
  · have h := cutBucket_eq_of_lt (n := 10) hcol (by norm_num)
      (colMin_le (List.mem_map_of_mem Token.left ht))
      (le_colMax (List.mem_map_of_mem Token.left ht))
    rw [colBucket, h]
    norm_num

/-- Witness for C1 (amended): evaluating the closed form at the concrete
edge token recovers the buckets the model computes. -/
theorem C1_bucket_closed_form_witness :
    rowBucket [tokA, tokB, tokC] tokB = 0 ∧ colBucket [tokA, tokB, tokC] tokB = 4 :=
  ⟨(C1_bucket_closed_form [tokA, tokB, tokC] tokB (by decide) (by decide)
      (by decide)).1.trans (by decide),
   (C1_bucket_closed_form [tokA, tokB, tokC] tokB (by decide) (by decide)
      (by decide)).2.trans (by decide)⟩

/-- C2: whenever at least one token survives the filter, the pivot emits a
full 20 × 10 cell grid — 20 rows of 10 cell strings each, independent of
the number of tokens — every surviving token's bucket pair addresses
exactly one cell of that grid (row < 20, column < 10), and every cell no
token maps to holds the empty string.  (After `reset_index` the returned
DataFrame additionally carries the row label in front of the 10 cells of
each row; see C10.) -/
theorem C2_grid_shape (ts : List Token) (h : cleanTokens ts ≠ []) :
    ∃ fr, extract_table_advanced_ocr ts = some fr ∧
      fr.rows.length = 20 ∧
      (∀ row ∈ fr.rows, row.2.length = 10) ∧
      (∀ t ∈ cleanTokens ts,
        rowBucket (cleanTokens ts) t < 20 ∧ colBucket (cleanTokens ts) t < 10) ∧
      (∀ r c : ℕ,
        (∀ t ∈ cleanTokens ts,
          ¬(rowBucket (cleanTokens ts) t = r ∧ colBucket (cleanTokens ts) t = c)) →
        pivotCell (cleanTokens ts) r c = "") := by
  refine ⟨_, extract_eq_some h, by simp, ?_, ?_, ?_⟩
  · intro row hrow
    rcases List.mem_map.mp hrow with ⟨r, _, rfl⟩
    simp
  · exact fun t ht => ⟨rowBucket_lt ht, colBucket_lt ht⟩
  · intro r c hnone
    rw [pivotCell]
    have hfil : (cleanTokens ts).filter
        (fun t => decide (rowBucket (cleanTokens ts) t = r ∧
          colBucket (cleanTokens ts) t = c)) = [] := by
      rw [List.filter_eq_nil_iff]
      intro t ht
      simp only [decide_eq_true_eq]
      exact hnone t ht
    rw [hfil]
    rfl

/-- Witness for C2 at a concrete three-token list. -/
theorem C2_grid_shape_witness :
    cleanTokens [tokA, tokB, tokC] ≠ [] ∧
    (∃ fr, extract_table_advanced_ocr [tokA, tokB, tokC] = some fr ∧
      fr.rows.length = 20 ∧
      (∀ row ∈ fr.rows, row.2.length = 10) ∧
      (∀ t ∈ cleanTokens [tokA, tokB, tokC],
        rowBucket (cleanTokens [tokA, tokB, tokC]) t < 20 ∧
          colBucket (cleanTokens [tokA, tokB, tokC]) t < 10) ∧
      (∀ r c : ℕ,
        (∀ t ∈ cleanTokens [tokA, tokB, tokC],
          ¬(rowBucket (cleanTokens [tokA, tokB, tokC]) t = r ∧
            colBucket (cleanTokens [tokA, tokB, tokC]) t = c)) →
        pivotCell (cleanTokens [tokA, tokB, tokC]) r c = "")) :=
  ⟨by decide, C2_grid_shape [tokA, tokB, tokC] (by decide)⟩

/-- C3 counterexample: on a token list whose tokens all sit at
(top, left) = (7, 7) no error is raised and all tokens do collapse into
one cell, but that cell is (9, 4) — the bucket left of the midpoint of the
0.1 %-padded degenerate range — not bucket (0, 0) as the claim states. -/
theorem C3_bucket_zero_counterexample :
    (∀ t ∈ [tokD7, tokE7], t.top = 7 ∧ t.left = 7) ∧
    tokD7 ∈ cleanTokens [tokD7, tokE7] ∧
    rowBucket (cleanTokens [tokD7, tokE7]) tokD7 = 9 ∧
    colBucket (cleanTokens [tokD7, tokE7]) tokD7 = 4 := by
  refine ⟨by decide, by decide, by decide, by decide⟩

/-- C3 (amended): a token list whose tokens all share one top value and one
left value raises no error (`pd.cut` pads the zero-width range by 0.1 % on
each side instead of dividing by zero); every surviving token is assigned
row bucket 9 = 20/2 − 1 and column bucket 4 = 10/2 − 1 (the shared value
sits exactly on the middle bin edge of the padded range, and the
right-closed intervals put it just left of the midpoint — not bucket 0);
and all tokens collapse into that single non-empty cell, every other cell
being empty. -/
theorem C3_degenerate_collapse (ts : List Token) (v w : ℚ)
    (h : cleanTokens ts ≠ []) (hall : ∀ t ∈ ts, t.top = v ∧ t.left = w) :
    (∃ fr, extract_table_advanced_ocr ts = some fr) ∧
    (∀ t ∈ cleanTokens ts,
      rowBucket (cleanTokens ts) t = 9 ∧ colBucket (cleanTokens ts) t = 4) ∧
    pivotCell (cleanTokens ts) 9 4 ≠ "" ∧
    (∀ r c : ℕ, ¬(r = 9 ∧ c = 4) → pivotCell (cleanTokens ts) r c = "") := by
  have hallc : ∀ t ∈ cleanTokens ts, t.top = v ∧ t.left = w := by
    intro t ht
    rcases mem_cleanTokens ht with ⟨t0, ht0, rfl, _⟩
    exact hall t0 ht0
  have htop : ∀ u ∈ (cleanTokens ts).map Token.top, u = v := by
    intro u hu
    rcases List.mem_map.mp hu with ⟨t, ht, rfl⟩
    exact (hallc t ht).1
  have hleft : ∀ u ∈ (cleanTokens ts).map Token.left, u = w := by
    intro u hu
    rcases List.mem_map.mp hu with ⟨t, ht, rfl⟩
    exact (hallc t ht).2
  have hmapne : (cleanTokens ts).map Token.top ≠ [] := by
    simpa using h
  have hmapne' : (cleanTokens ts).map Token.left ≠ [] := by
    simpa using h
  have hbuckets : ∀ t ∈ cleanTokens ts,
      rowBucket (cleanTokens ts) t = 9 ∧ colBucket (cleanTokens ts) t = 4 := by
    intro t ht
    constructor
    · rw [rowBucket, colMin_const hmapne htop, colMax_const hmapne htop,
        (hallc t ht).1, cutBucket_eq_of_eq v 20 (by norm_num)]
    · rw [colBucket, colMin_const hmapne' hleft, colMax_const hmapne' hleft,
        (hallc t ht).2, cutBucket_eq_of_eq w 10 (by norm_num)]
  refine ⟨⟨_, extract_eq_some h⟩, hbuckets, ?_, ?_⟩
  · rcases List.exists_cons_of_ne_nil h with ⟨t, rest, hcons⟩
    have hfil : (cleanTokens ts).filter
        (fun t => decide (rowBucket (cleanTokens ts) t = 9 ∧
          colBucket (cleanTokens ts) t = 4)) = cleanTokens ts := by
      rw [List.filter_eq_self]
      intro t' ht'
      simp only [decide_eq_true_eq]
      exact ⟨(hbuckets t' ht').1, (hbuckets t' ht').2⟩
    rw [pivotCell, hfil, hcons, List.map_cons]
    have hshape := cleanTokens_shape (show t ∈ cleanTokens ts by rw [hcons]; simp)
    rcases hshape.2 with ⟨s, hts, hsne, _⟩
    apply intercalate_ne_empty
    rw [tokenText, hts]
    exact hsne
  · intro r c hrc
    rw [pivotCell]
    have hfil : (cleanTokens ts).filter
        (fun t => decide (rowBucket (cleanTokens ts) t = r ∧
          colBucket (cleanTokens ts) t = c)) = [] := by
      rw [List.filter_eq_nil_iff]
      intro t ht
      simp only [decide_eq_true_eq]
      intro hcon
      exact hrc ⟨hcon.1 ▸ (hbuckets t ht).1.symm ▸ rfl, by
        have := (hbuckets t ht).2
        omega⟩
    rw [hfil]
    rfl

/-- Witness for C3 (amended) at the concrete degenerate two-token list. -/
theorem C3_degenerate_collapse_witness :
    (cleanTokens [tokD7, tokE7] ≠ [] ∧ ∀ t ∈ [tokD7, tokE7], t.top = 7 ∧ t.left = 7) ∧
    ((∃ fr, extract_table_advanced_ocr [tokD7, tokE7] = some fr) ∧
     (∀ t ∈ cleanTokens [tokD7, tokE7],
       rowBucket (cleanTokens [tokD7, tokE7]) t = 9 ∧
         colBucket (cleanTokens [tokD7, tokE7]) t = 4) ∧
     pivotCell (cleanTokens [tokD7, tokE7]) 9 4 ≠ "" ∧
     (∀ r c : ℕ, ¬(r = 9 ∧ c = 4) → pivotCell (cleanTokens [tokD7, tokE7]) r c = "")) :=
  ⟨⟨by decide, by decide⟩,
   C3_degenerate_collapse [tokD7, tokE7] 7 7 (by decide) (by decide)⟩

/-- C7: in the emitted frame, the cell at grid address (r, c) is exactly
the texts of the surviving tokens whose bucket pair is (r, c),
concatenated in their original (detector-reported) order and joined by a
single space; a cell with no tokens is the empty string (the join of an
empty group). -/
theorem C7_cell_contents (ts : List Token) (h : cleanTokens ts ≠ []) :
    ∃ fr, extract_table_advanced_ocr ts = some fr ∧
      ∀ r c : ℕ, r < 20 → c < 10 →
        ∃ row, fr.rows[r]? = some row ∧
          row.2[c]? = some (String.intercalate " "
            (((cleanTokens ts).filter fun t =>
              decide (rowBucket (cleanTokens ts) t = r ∧
                colBucket (cleanTokens ts) t = c)).map tokenText)) := by
  refine ⟨_, extract_eq_some h, ?_⟩
  intro r c hr hc
  refine ⟨(r, (List.range 10).map fun c' => pivotCell (cleanTokens ts) r c'), ?_, ?_⟩
  · rw [List.getElem?_map, List.getElem?_range hr]
    rfl
  · show ((List.range 10).map fun c' => pivotCell (cleanTokens ts) r c')[c]? = _
    rw [List.getElem?_map, List.getElem?_range hc]
    rfl

/-- Witness for C7: the concrete scenario of spec §8.5 scaled to the fixed
20 × 10 grid — "A" (high confidence) and a dropped low-confidence "B"
leave "A" alone in its cell. -/
theorem C7_cell_contents_witness :
    cleanTokens [tokA, tokLow, tokC] ≠ [] ∧
    (∃ fr, extract_table_advanced_ocr [tokA, tokLow, tokC] = some fr ∧
      ∀ r c : ℕ, r < 20 → c < 10 →
        ∃ row, fr.rows[r]? = some row ∧
          row.2[c]? = some (String.intercalate " "
            (((cleanTokens [tokA, tokLow, tokC]).filter fun t =>
              decide (rowBucket (cleanTokens [tokA, tokLow, tokC]) t = r ∧
                colBucket (cleanTokens [tokA, tokLow, tokC]) t = c)).map tokenText))) :=
  ⟨by decide, C7_cell_contents [tokA, tokLow, tokC] (by decide)⟩

/-- C10: after `reset_index` and renaming, the returned table's columns are
`Column_0 … Column_10`; the first column (`Column_0`) of each emitted row
holds that row's row-bucket label 0..19 — not token text — and the
concatenated token texts sit only in the ten subsequent columns
`Column_1 … Column_10`, which are exactly the pivot cells of that row
bucket. -/
theorem C10_label_column (ts : List Token) (h : cleanTokens ts ≠ []) :
    ∃ fr, extract_table_advanced_ocr ts = some fr ∧
      fr.header = ["Column_0", "Column_1", "Column_2", "Column_3", "Column_4",
        "Column_5", "Column_6", "Column_7", "Column_8", "Column_9", "Column_10"] ∧
      fr.rows.map Prod.fst = List.range 20 ∧
      ∀ row ∈ fr.rows, row.2 = (List.range 10).map (pivotCell (cleanTokens ts) row.1) := by
  refine ⟨_, extract_eq_some h, rfl, ?_, ?_⟩
  · rw [List.map_map]
    exact List.map_id (List.range 20)
  · intro row hrow
    rcases List.mem_map.mp hrow with ⟨r, _, rfl⟩
    rfl

/-- Witness for C10 at a concrete token list. -/
theorem C10_label_column_witness :
    cleanTokens [tokA, tokB, tokC] ≠ [] ∧
    (∃ fr, extract_table_advanced_ocr [tokA, tokB, tokC] = some fr ∧
      fr.header = ["Column_0", "Column_1", "Column_2", "Column_3", "Column_4",
        "Column_5", "Column_6", "Column_7", "Column_8", "Column_9", "Column_10"] ∧
      fr.rows.map Prod.fst = List.range 20 ∧
      ∀ row ∈ fr.rows,
        row.2 = (List.range 10).map (pivotCell (cleanTokens [tokA, tokB, tokC]) row.1)) :=
  ⟨by decide, C10_label_column [tokA, tokB, tokC] (by decide)⟩
